import Mathlib

/-!
Verification of the json_deref reference-resolution pipeline.

This development embeds the Rust sources of the repository:

* `src/lib.rs` — the pipeline wired to the public entry point `resolve_json`:
  `resolve_reference_path`, `prepare_path_map`, `convert_to_absolute_paths`,
  `extract_values_from_paths`, `resolve_values`.
* `src/parsing/path.rs` — `AbsolutePath::new`, `AbsolutePath::append`,
  `AbsolutePath::resolve_with`.
* `src/parsing/mod.rs` — `make_deps_path_map`, `extract_values_by_paths`.

JSON documents are modelled by the inductive `JValue`; object fields keep
their iteration order as a list (serde_json's default `Map` iterates keys in
sorted order; concrete documents below are written in that order).  Strings
are modelled as their character lists; all inputs considered are ASCII, so
Rust's byte indices coincide with character indices.  `HashMap` is modelled
as an association list whose `insert` replaces an existing binding, and
`HashSet` as a list queried by membership.

The in-string rewrite loop of `convert_to_absolute_paths` does not terminate
on all inputs (it diverges on `divergingDoc` below), so every scanning loop
is embedded with an explicit fuel parameter and the stages return `Option`,
`none` meaning the fuel ran out.  A run of the Rust code that terminates is
reproduced exactly by any sufficiently large fuel.
-/

namespace JsonDeref

/-- Model of `serde_json::Value`: JSON documents.  Numbers in the claims are
integers, so `Number` is modelled by `Int` (rendering via `toString` matches
Rust's decimal `Number::to_string` on integers). -/
inductive JValue where
  | null
  | bool (b : Bool)
  | num (n : Int)
  | str (s : String)
  | arr (elems : List JValue)
  | obj (fields : List (String × JValue))
  deriving Repr

/-- The opening brace character. -/
def obr : Char := Char.ofNat 123

/-- The closing brace character. -/
def cbr : Char := Char.ofNat 125

/-- Index of the first occurrence of a character in a character list. -/
def findChar (c : Char) : List Char → Option Nat
  | [] => none
  | x :: xs => if x = c then some 0 else (findChar c xs).map (· + 1)

/-- Rust's `text[i..].find(c)` adjusted to an absolute index: position of the
first occurrence of `c` at or after index `i`. -/
def findFrom (c : Char) (t : List Char) (i : Nat) : Option Nat :=
  (findChar c (t.drop i)).map (i + ·)

/-- Rust's slice `&text[s+1..e]`: the reference text strictly between the
braces found at `s` and `e`. -/
def sliceRef (t : List Char) (s e : Nat) : List Char :=
  (t.drop (s + 1)).take (e - (s + 1))

/-- Rust's `String::replace_range(s..=e, r)`. -/
def replaceRange (t : List Char) (s e : Nat) (r : List Char) : List Char :=
  t.take s ++ r ++ t.drop (e + 1)

/-- Rust's `str::starts_with('/')`. -/
def startsWithSlash : List Char → Bool
  | [] => false
  | c :: _ => c = '/'

/-- Association-list model of `HashMap<String, α>`.  `insert` replaces any
existing binding for the key, as `HashMap::insert` does. -/
def amapInsert {α : Type} (m : List (String × α)) (k : String) (v : α) :
    List (String × α) :=
  m.filter (fun p => p.1 ≠ k) ++ [(k, v)]

/-- Lookup in the association-list model of `HashMap`. -/
def amapLookup {α : Type} : List (String × α) → String → Option α
  | [], _ => none
  | (k, v) :: rest, key => if k = key then some v else amapLookup rest key

/-- Membership in the list model of `HashSet<String>`. -/
def memStr (s : String) : List String → Bool
  | [] => false
  | t :: rest => if t = s then true else memStr s rest

/-- The `HashMap<String, String>` used for the dependency path map and the
extracted-values table of `lib.rs`. -/
abbrev SMap := List (String × String)

/-- Rust's `str::split('/')` on a character list: the list of `/`-separated
pieces (empty pieces included, as in Rust). -/
def splitSlashGo (cur : List Char) : List Char → List (List Char)
  | [] => [cur.reverse]
  | c :: rest =>
    if c = '/' then cur.reverse :: splitSlashGo [] rest
    else splitSlashGo (c :: cur) rest

/-- Splitting a character list at every slash. -/
def splitSlash (l : List Char) : List (List Char) := splitSlashGo [] l

/-- Rust's `Vec::join("/")`. -/
def joinSlash : List (List Char) → List Char
  | [] => []
  | [p] => p
  | p :: q :: rest => p ++ '/' :: joinSlash (q :: rest)

/-- `resolve_reference_path` from `src/lib.rs` (the identical algorithm is
`AbsolutePath::resolve_with` in `src/parsing/path.rs`): split the base into
nonempty segments, drop the last one, then process the reference segments
left to right (`..` pops, empty segments are ignored, anything else is
pushed), finally reassemble with a leading slash. -/
def resolve_reference_path (basePath relativePath : String) : String :=
  let baseParts := ((splitSlash basePath.data).filter (fun p => p ≠ [])).dropLast
  let parts := (splitSlash relativePath.data).foldl
    (fun acc seg =>
      if seg = ['.', '.'] then acc.dropLast
      else if seg = [] then acc
      else acc ++ [seg])
    baseParts
  String.mk ('/' :: joinSlash parts)

/-- The placeholder scan of `prepare_path_map` (`src/lib.rs` lines 91-112):
record each `{reference}` of the string into the flat path map, keyed by the
raw reference text alone.  Absolute references map to themselves, relative
ones to their resolution against `basePath`.  A `{` with no later `}` stops
the scan. -/
def prepScan (basePath : String) : Nat → List Char → Nat → SMap → Option SMap
  | 0, _, _, _ => none
  | fuel + 1, text, startPos, m =>
    match findFrom obr text startPos with
    | none => some m
    | some aStart =>
      match findFrom cbr text aStart with
      | none => some m
      | some aEnd =>
        let refChars := sliceRef text aStart aEnd
        let ref := String.mk refChars
        if startsWithSlash refChars then
          prepScan basePath fuel text (aEnd + 1) (amapInsert m ref ref)
        else
          prepScan basePath fuel text (aEnd + 1)
            (amapInsert m ref (resolve_reference_path basePath ref))

mutual

/-- `prepare_path_map` from `src/lib.rs`: walk the document; object children
extend the base path with `"/" ++ key`, array elements keep the enclosing
base path unchanged (lib.rs line 88), and every string leaf is scanned. -/
def prepare_path_map (fuel : Nat) (j : JValue) (basePath : String) (m : SMap) :
    Option SMap :=
  match j with
  | .obj fields => prepareFields fuel fields basePath m
  | .arr elems => prepareElems fuel elems basePath m
  | .str s => prepScan basePath fuel s.data 0 m
  | _ => some m

/-- Object part of the `prepare_path_map` walk. -/
def prepareFields (fuel : Nat) :
    List (String × JValue) → String → SMap → Option SMap
  | [], _, m => some m
  | (k, v) :: rest, basePath, m =>
    match prepare_path_map fuel v (basePath ++ "/" ++ k) m with
    | none => none
    | some m2 => prepareFields fuel rest basePath m2

/-- Array part of the `prepare_path_map` walk (no index is appended). -/
def prepareElems (fuel : Nat) : List JValue → String → SMap → Option SMap
  | [], _, m => some m
  | v :: rest, basePath, m =>
    match prepare_path_map fuel v basePath m with
    | none => none
    | some m2 => prepareElems fuel rest basePath m2

end

/-- The rewrite loop of `convert_to_absolute_paths` (`src/lib.rs` lines
134-157): each `{reference}` whose reference is a key of the path map is
rewritten in place to `{absolute}`, and scanning resumes at index
`absolute_start + absolute_path.len()` inside the rewritten text. -/
def convGo (m : SMap) : Nat → List Char → Nat → Option (List Char)
  | 0, _, _ => none
  | fuel + 1, text, startPos =>
    match findFrom obr text startPos with
    | none => some text
    | some aStart =>
      match findFrom cbr text aStart with
      | none => some text
      | some aEnd =>
        let ref := String.mk (sliceRef text aStart aEnd)
        match amapLookup m ref with
        | some abs =>
          convGo m fuel
            (replaceRange text aStart aEnd (obr :: abs.data ++ [cbr]))
            (aStart + abs.data.length)
        | none => convGo m fuel text (aEnd + 1)

mutual

/-- `convert_to_absolute_paths` from `src/lib.rs`: rebuild the document,
rewriting every placeholder of every string leaf to its absolute form. -/
def convert_to_absolute_paths (fuel : Nat) (j : JValue) (m : SMap) :
    Option JValue :=
  match j with
  | .obj fields =>
    match convertFields fuel fields m with
    | none => none
    | some fs => some (.obj fs)
  | .arr elems =>
    match convertElems fuel elems m with
    | none => none
    | some xs => some (.arr xs)
  | .str s =>
    match convGo m fuel s.data 0 with
    | none => none
    | some l => some (.str (String.mk l))
  | other => some other

/-- Object part of the `convert_to_absolute_paths` walk. -/
def convertFields (fuel : Nat) :
    List (String × JValue) → SMap → Option (List (String × JValue))
  | [], _ => some []
  | (k, v) :: rest, m =>
    match convert_to_absolute_paths fuel v m with
    | none => none
    | some v2 =>
      match convertFields fuel rest m with
      | none => none
      | some fs => some ((k, v2) :: fs)

/-- Array part of the `convert_to_absolute_paths` walk. -/
def convertElems (fuel : Nat) : List JValue → SMap → Option (List JValue)
  | [], _ => some []
  | v :: rest, m =>
    match convert_to_absolute_paths fuel v m with
    | none => none
    | some v2 =>
      match convertElems fuel rest m with
      | none => none
      | some xs => some (v2 :: xs)

end

mutual

/-- `extract_values_from_paths` from `src/lib.rs`: walk the expanded
document; object children extend the path with `"/" ++ key`, array elements
with `"/" ++ index`; a string leaf whose path is requested is recorded
verbatim, a number leaf is recorded as its decimal string, every other kind
of value is ignored. -/
def extract_values_from_paths (j : JValue) (paths : List String)
    (currentPath : String) (acc : SMap) : SMap :=
  match j with
  | .obj fields => extractFields fields paths currentPath acc
  | .arr elems => extractElems elems paths currentPath 0 acc
  | .str s =>
    if memStr currentPath paths then amapInsert acc currentPath s else acc
  | .num n =>
    if memStr currentPath paths then amapInsert acc currentPath (toString n)
    else acc
  | _ => acc

/-- Object part of the `extract_values_from_paths` walk. -/
def extractFields :
    List (String × JValue) → List String → String → SMap → SMap
  | [], _, _, acc => acc
  | (k, v) :: rest, paths, currentPath, acc =>
    extractFields rest paths currentPath
      (extract_values_from_paths v paths (currentPath ++ "/" ++ k) acc)

/-- Array part of the `extract_values_from_paths` walk (indices appended). -/
def extractElems :
    List JValue → List String → String → Nat → SMap → SMap
  | [], _, _, _, acc => acc
  | v :: rest, paths, currentPath, i, acc =>
    extractElems rest paths currentPath (i + 1)
      (extract_values_from_paths v paths (currentPath ++ "/" ++ toString i) acc)

end

/-- The substitution loop of `resolve_values` (`src/lib.rs` lines 206-225):
each `{key}` whose key is bound in the context is replaced by the bound
string, and scanning resumes at `absolute_start + value.len()`, i.e. right
after the inserted text, which is therefore never rescanned. -/
def resScan (ctx : SMap) : Nat → List Char → Nat → Option (List Char)
  | 0, _, _ => none
  | fuel + 1, text, startPos =>
    match findFrom obr text startPos with
    | none => some text
    | some aStart =>
      match findFrom cbr text aStart with
      | none => some text
      | some aEnd =>
        let key := String.mk (sliceRef text aStart aEnd)
        match amapLookup ctx key with
        | some v =>
          resScan ctx fuel (replaceRange text aStart aEnd v.data)
            (aStart + v.data.length)
        | none => resScan ctx fuel text (aEnd + 1)

mutual

/-- `resolve_values` from `src/lib.rs`: rebuild the document, running the
substitution loop on every string leaf; all substitution is textual. -/
def resolve_values (fuel : Nat) (j : JValue) (ctx : SMap) : Option JValue :=
  match j with
  | .obj fields =>
    match resolveFields fuel fields ctx with
    | none => none
    | some fs => some (.obj fs)
  | .arr elems =>
    match resolveElems fuel elems ctx with
    | none => none
    | some xs => some (.arr xs)
  | .str s =>
    match resScan ctx fuel s.data 0 with
    | none => none
    | some l => some (.str (String.mk l))
  | other => some other

/-- Object part of the `resolve_values` walk. -/
def resolveFields (fuel : Nat) :
    List (String × JValue) → SMap → Option (List (String × JValue))
  | [], _ => some []
  | (k, v) :: rest, ctx =>
    match resolve_values fuel v ctx with
    | none => none
    | some v2 =>
      match resolveFields fuel rest ctx with
      | none => none
      | some fs => some ((k, v2) :: fs)

/-- Array part of the `resolve_values` walk. -/
def resolveElems (fuel : Nat) : List JValue → SMap → Option (List JValue)
  | [], _ => some []
  | v :: rest, ctx =>
    match resolve_values fuel v ctx with
    | none => none
    | some v2 =>
      match resolveElems fuel rest ctx with
      | none => none
      | some xs => some (v2 :: xs)

end

/-- `resolve_json` from `src/lib.rs`: the public entry point.  Builds the
flat path map, rewrites the document to absolute placeholders, collects the
set of referenced absolute paths, extracts their values as strings, and
substitutes them textually.  `none` means the given fuel was exhausted by one
of the in-string rewrite loops. -/
def resolve_json (fuel : Nat) (input : JValue) : Option JValue :=
  match prepare_path_map fuel input "" [] with
  | none => none
  | some pathMap =>
    match convert_to_absolute_paths fuel input pathMap with
    | none => none
    | some expanded =>
      let paths := pathMap.map (fun p => p.2)
      let extracted := extract_values_from_paths expanded paths "" []
      resolve_values fuel expanded extracted

/-! The `parsing` module: `src/parsing/path.rs` and `src/parsing/mod.rs`. -/

/-- Rust's `str::trim_start_matches('/')`. -/
def trimSlashStart (l : List Char) : List Char :=
  l.dropWhile (fun c => c = '/')

/-- Rust's `str::trim_end_matches('/')`. -/
def trimSlashEnd (l : List Char) : List Char :=
  (l.reverse.dropWhile (fun c => c = '/')).reverse

/-- `AbsolutePath::new` from `src/parsing/path.rs`: normalize by trimming
slashes from both ends and prepending a single slash. -/
def absolute_path_new (p : String) : String :=
  String.mk ('/' :: trimSlashEnd (trimSlashStart p.data))

/-- `AbsolutePath::append` from `src/parsing/path.rs`: trim the trailing
slashes of the base and the surrounding slashes of the new segment, then
join with a single slash. -/
def absolute_path_append (base p : String) : String :=
  String.mk (trimSlashEnd base.data ++ '/' :: trimSlashEnd (trimSlashStart p.data))

/-- The `HashMap<AbsolutePath, HashMap<RelativePath, AbsolutePath>>` built by
`make_deps_path_map`, keyed by the absolute path of the referencing leaf. -/
abbrev DepsMap := List (String × SMap)

/-- The placeholder scan inside `make_deps_path_map` (`src/parsing/mod.rs`
lines 27-47): collect this leaf's dependencies, mapping each raw reference
to the absolute path it resolves to (absolute references are normalized
with `AbsolutePath::new`, relative ones resolved against the leaf's own
absolute path). -/
def depsScan (basePath : String) : Nat → List Char → Nat → SMap → Option SMap
  | 0, _, _, _ => none
  | fuel + 1, text, startPos, deps =>
    match findFrom obr text startPos with
    | none => some deps
    | some aStart =>
      match findFrom cbr text aStart with
      | none => some deps
      | some aEnd =>
        let refChars := sliceRef text aStart aEnd
        let ref := String.mk refChars
        if startsWithSlash refChars then
          depsScan basePath fuel text (aEnd + 1)
            (amapInsert deps ref (absolute_path_new ref))
        else
          depsScan basePath fuel text (aEnd + 1)
            (amapInsert deps ref (resolve_reference_path basePath ref))

mutual

/-- `make_deps_path_map` from `src/parsing/mod.rs`: walk the document; object
children append their key to the base absolute path, array elements append
their stringified index; at a string leaf the scan's dependencies are
recorded under the leaf's own absolute path (leaves without dependencies
contribute no entry). -/
def make_deps_path_map (fuel : Nat) (j : JValue) (basePath : String)
    (acc : DepsMap) : Option DepsMap :=
  match j with
  | .obj fields => makeDepsFields fuel fields basePath acc
  | .arr elems => makeDepsElems fuel elems basePath 0 acc
  | .str s =>
    match depsScan basePath fuel s.data 0 [] with
    | none => none
    | some deps =>
      some (if deps.isEmpty then acc else amapInsert acc basePath deps)
  | _ => some acc

/-- Object part of the `make_deps_path_map` walk. -/
def makeDepsFields (fuel : Nat) :
    List (String × JValue) → String → DepsMap → Option DepsMap
  | [], _, acc => some acc
  | (k, v) :: rest, basePath, acc =>
    match make_deps_path_map fuel v (absolute_path_append basePath k) acc with
    | none => none
    | some acc2 => makeDepsFields fuel rest basePath acc2

/-- Array part of the `make_deps_path_map` walk: element `i` is visited at
the enclosing path extended with the stringified index `i`. -/
def makeDepsElems (fuel : Nat) :
    List JValue → String → Nat → DepsMap → Option DepsMap
  | [], _, _, acc => some acc
  | v :: rest, basePath, i, acc =>
    match make_deps_path_map fuel v (absolute_path_append basePath (toString i)) acc with
    | none => none
    | some acc2 => makeDepsElems fuel rest basePath (i + 1) acc2

end

/-- The `HashMap<AbsolutePath, Value>` target table of the parsing module. -/
abbrev VMap := List (String × JValue)

mutual

/-- `extract_values_by_paths` from `src/parsing/mod.rs`: walk the expanded
document tracking the current absolute path; whenever the current path is a
member of the requested set, record the value found there verbatim — an
object is recorded before its children are visited, an array after its
elements, scalars (string, number, boolean, null) directly. -/
def extract_values_by_paths (j : JValue) (paths : List String)
    (currentPath : String) (acc : VMap) : VMap :=
  match j with
  | .obj fields =>
    extractBPFields fields paths currentPath
      (if memStr currentPath paths then
        amapInsert acc currentPath (.obj fields)
      else acc)
  | .arr elems =>
    let acc1 := extractBPElems elems paths currentPath 0 acc
    if memStr currentPath paths then amapInsert acc1 currentPath (.arr elems)
    else acc1
  | v =>
    if memStr currentPath paths then amapInsert acc currentPath v else acc

/-- Object part of the `extract_values_by_paths` walk. -/
def extractBPFields :
    List (String × JValue) → List String → String → VMap → VMap
  | [], _, _, acc => acc
  | (k, v) :: rest, paths, currentPath, acc =>
    extractBPFields rest paths currentPath
      (extract_values_by_paths v paths (absolute_path_append currentPath k) acc)

/-- Array part of the `extract_values_by_paths` walk. -/
def extractBPElems :
    List JValue → List String → String → Nat → VMap → VMap
  | [], _, _, _, acc => acc
  | v :: rest, paths, currentPath, i, acc =>
    extractBPElems rest paths currentPath (i + 1)
      (extract_values_by_paths v paths
        (absolute_path_append currentPath (toString i)) acc)

end

mutual

/-- Decidable check that a document contains no opening brace in any of its
string leaves, so that no stage's scan records or rewrites anything in it. -/
def noPlaceholders : JValue → Bool
  | .str s => (findChar obr s.data).isNone
  | .arr elems => noPlaceholdersList elems
  | .obj fields => noPlaceholdersFields fields
  | _ => true

/-- List part of `noPlaceholders`. -/
def noPlaceholdersList : List JValue → Bool
  | [] => true
  | v :: rest => noPlaceholders v && noPlaceholdersList rest

/-- Field part of `noPlaceholders`. -/
def noPlaceholdersFields : List (String × JValue) → Bool
  | [] => true
  | (_, v) :: rest => noPlaceholders v && noPlaceholdersFields rest

end

mutual

/-- Specification-side trace of the `extract_values_by_paths` walk: every
node of the document paired with its absolute path, listed in the order in
which the walk checks them for membership (an object before its children, an
array after its elements). -/
def nodesOf (j : JValue) (currentPath : String) : List (String × JValue) :=
  match j with
  | .obj fields => (currentPath, .obj fields) :: nodesOfFields fields currentPath
  | .arr elems => nodesOfElems elems currentPath 0 ++ [(currentPath, .arr elems)]
  | v => [(currentPath, v)]

/-- Field part of the `nodesOf` trace. -/
def nodesOfFields : List (String × JValue) → String → List (String × JValue)
  | [], _ => []
  | (k, v) :: rest, cur =>
    nodesOf v (absolute_path_append cur k) ++ nodesOfFields rest cur

/-- Element part of the `nodesOf` trace. -/
def nodesOfElems : List JValue → String → Nat → List (String × JValue)
  | [], _, _ => []
  | v :: rest, cur, i =>
    nodesOf v (absolute_path_append cur (toString i)) ++ nodesOfElems rest cur (i + 1)

end

/-- One step of the extractor, seen as a fold over the `nodesOf` trace:
record the node's value if its path is requested. -/
def extStep (paths : List String) (m : VMap) (e : String × JValue) : VMap :=
  if memStr e.1 paths then amapInsert m e.1 e.2 else m

/-- A sequence of `n` consecutive `../` up-references. -/
def upN : Nat → List Char
  | 0 => []
  | n + 1 => '.' :: '.' :: '/' :: upN n

/-! Concrete documents used to settle the claims. -/

/-- Two sibling branches whose leaves both contain the raw reference text
`../parent_key` (the document of the repository's own
`test_relative_path_with_multiple_absolute_resolutions`). -/
def siblingBranchesDoc : JValue :=
  .obj [("branch1", .obj [("parent_key", .str "value1"),
          ("subbranch", .obj [("child_key", .str "\x7b../parent_key\x7d")])]),
        ("branch2", .obj [("parent_key", .str "value2"),
          ("subbranch", .obj [("child_key", .str "\x7b../parent_key\x7d")])])]

/-- What `resolve_json` actually produces on `siblingBranchesDoc`: the flat
path map keyed by raw reference text retains only the last resolution of
`../parent_key`, so both leaves receive `value2`. -/
def siblingBranchesOut : JValue :=
  .obj [("branch1", .obj [("parent_key", .str "value1"),
          ("subbranch", .obj [("child_key", .str "value2")])]),
        ("branch2", .obj [("parent_key", .str "value2"),
          ("subbranch", .obj [("child_key", .str "value2")])])]

/-- The document of the type-preservation example: `{"a": "{/b}", "b": 42}`. -/
def wholeStringDoc : JValue := .obj [("a", .str "\x7b/b\x7d"), ("b", .num 42)]

/-- What `resolve_json` actually produces on `wholeStringDoc`: the leaf `a`
becomes the string `"42"`, not the number `42`. -/
def wholeStringOut : JValue := .obj [("a", .str "42"), ("b", .num 42)]

/-- The unresolvable-absolute-reference document `{"x": "{/nonexistent}"}`. -/
def absNonexistentDoc : JValue := .obj [("x", .str "\x7b/nonexistent\x7d")]

/-- An unresolvable relative reference: `{"x": "{nonexistent}"}`. -/
def relNonexistentDoc : JValue := .obj [("x", .str "\x7bnonexistent\x7d")]

/-- What `resolve_json` produces on `relNonexistentDoc`: the placeholder
survives but is rewritten to its absolute form. -/
def relNonexistentOut : JValue := .obj [("x", .str "\x7b/nonexistent\x7d")]

/-- The embedded-placeholder document of the claims. -/
def greetingDoc : JValue :=
  .obj [("greeting", .str "Hi \x7buser\x7d, msgs: \x7bcount\x7d"),
        ("user", .str "Alice"), ("count", .num 5)]

/-- The resolved embedded-placeholder document. -/
def greetingOut : JValue :=
  .obj [("greeting", .str "Hi Alice, msgs: 5"),
        ("user", .str "Alice"), ("count", .num 5)]

/-- The malformed-placeholder document `{"x": "value {unterminated"}`. -/
def malformedDoc : JValue := .obj [("x", .str "value \x7bunterminated")]

/-- A chain of references: `a` references `b`, whose value itself still
contains a placeholder referencing `c`. -/
def chainDoc : JValue :=
  .obj [("a", .str "\x7b/b\x7d"), ("b", .str "\x7b/c\x7d"), ("c", .str "end")]

/-- The resolution of `chainDoc`: `a` receives `b`'s literal, still
unresolved text `"{/c}"`, not `c`'s value. -/
def chainOut : JValue :=
  .obj [("a", .str "\x7b/c\x7d"), ("b", .str "end"), ("c", .str "end")]

/-- The document `{"k{": {"x": "{}"}}` on which the rewrite loop of
`convert_to_absolute_paths` never terminates: the empty reference resolves
to the path `/k{`, which ends with an opening brace, and the loop rescans
the rewritten text from that brace forever. -/
def divergingDoc : JValue :=
  .obj [("k\x7b", .obj [("x", .str "\x7b\x7d")])]

/-- The path map `prepare_path_map` builds for `divergingDoc`: the empty
reference maps to the path `/k{`, which ends with an opening brace. -/
def divergeMap : SMap := [("", "/k\x7b")]

/-- A document holding several value kinds, used to exercise the target
extractor: an array container at `/a` with scalar children, and a number
at `/b`. -/
def kindsDoc : JValue :=
  .obj [("a", .arr [.num 1, .bool true]), ("b", .num 2)]

/-- Array whose second element holds a relative reference `{../q}`. -/
def arrayRefElems : List JValue := [.num 7, .str "\x7b../q\x7d"]

/-! Helper lemmas about the scanning primitives. -/

theorem findChar_some_lt {c : Char} {l : List Char} {k : Nat}
    (h : findChar c l = some k) : k < l.length := by
  induction l generalizing k with
  | nil => simp [findChar] at h
  | cons x xs ih =>
    by_cases hx : x = c
    · simp [findChar, hx] at h
      simp only [List.length_cons]
      omega
    · simp [findChar, hx] at h
      obtain ⟨k', hk', rfl⟩ := h
      have := ih hk'
      simp only [List.length_cons]
      omega

theorem findFrom_bounds {c : Char} {t : List Char} {i j : Nat}
    (h : findFrom c t i = some j) : i ≤ j ∧ j < t.length := by
  unfold findFrom at h
  obtain ⟨k, hk, rfl⟩ := Option.map_eq_some'.mp h
  have := findChar_some_lt hk
  simp only [List.length_drop] at this
  omega

theorem findChar_none_of_notMem {c : Char} {l : List Char} (h : c ∉ l) :
    findChar c l = none := by
  induction l with
  | nil => rfl
  | cons x xs ih =>
    simp only [List.mem_cons, not_or] at h
    have hx : ¬ x = c := fun hx => h.1 hx.symm
    simp [findChar, hx, ih h.2]

theorem findChar_append_notMem {c : Char} {A : List Char} (B : List Char)
    (h : c ∉ A) : findChar c (A ++ c :: B) = some A.length := by
  induction A with
  | nil => simp [findChar]
  | cons x xs ih =>
    simp only [List.mem_cons, not_or] at h
    have hx : ¬ x = c := fun hx => h.1 hx.symm
    simp [findChar, hx, ih h.2]

theorem drop_len_add_append {α : Type} (A : List α) (L : List α) (k : Nat) :
    (A ++ L).drop (A.length + k) = L.drop k := by
  induction A with
  | nil => simp
  | cons a A ih =>
    have h : (a :: A).length + k = (A.length + k) + 1 := by
      simp only [List.length_cons]
      omega
    rw [h, List.cons_append, List.drop_succ_cons, ih]

/-! Helper lemmas about the association-list model of `HashMap`. -/

theorem amapLookup_append {α : Type} (l1 l2 : List (String × α)) (k : String) :
    amapLookup (l1 ++ l2) k =
      match amapLookup l1 k with
      | some v => some v
      | none => amapLookup l2 k := by
  induction l1 with
  | nil => simp [amapLookup]
  | cons p rest ih =>
    obtain ⟨a, b⟩ := p
    by_cases hp : a = k
    · simp [amapLookup, hp]
    · simp [amapLookup, hp, ih]

theorem amapLookup_filter_self {α : Type} (l : List (String × α)) (k : String) :
    amapLookup (l.filter (fun p => p.1 ≠ k)) k = none := by
  induction l with
  | nil => rfl
  | cons p rest ih =>
    obtain ⟨a, b⟩ := p
    by_cases hp : a = k
    · simpa [List.filter_cons, hp] using ih
    · simpa [List.filter_cons, hp, amapLookup] using ih

theorem amapLookup_filter_ne {α : Type} (l : List (String × α))
    {k k' : String} (h : k' ≠ k) :
    amapLookup (l.filter (fun p => p.1 ≠ k)) k' = amapLookup l k' := by
  have hk : ¬ k = k' := fun hh => h hh.symm
  induction l with
  | nil => rfl
  | cons p rest ih =>
    obtain ⟨a, b⟩ := p
    by_cases hp : a = k
    · simpa [List.filter_cons, hp, amapLookup, hk] using ih
    · by_cases ha : a = k'
      · simp [List.filter_cons, hp, amapLookup, ha, h]
      · simp only [List.filter_cons] at ih ⊢
        simp [hp, amapLookup, ha] at ih ⊢
        exact ih

theorem amapLookup_insert_self {α : Type} (m : List (String × α)) (k : String)
    (v : α) : amapLookup (amapInsert m k v) k = some v := by
  unfold amapInsert
  rw [amapLookup_append, amapLookup_filter_self]
  simp [amapLookup]

theorem amapLookup_insert_ne {α : Type} (m : List (String × α))
    {k k' : String} (v : α) (h : k' ≠ k) :
    amapLookup (amapInsert m k v) k' = amapLookup m k' := by
  unfold amapInsert
  rw [amapLookup_append, amapLookup_filter_ne m h]
  have hk : ¬ k = k' := fun hh => h hh.symm
  match hm : amapLookup m k' with
  | some w => rfl
  | none => simp [amapLookup, hk]

/-! The extractor of the parsing module, characterised as a fold over the
`nodesOf` trace. -/

mutual

theorem extract_eq_foldl (j : JValue) (paths : List String) (cur : String)
    (acc : VMap) :
    extract_values_by_paths j paths cur acc =
      (nodesOf j cur).foldl (extStep paths) acc := by
  cases j with
  | obj fields =>
    rw [extract_values_by_paths, nodesOf, List.foldl_cons]
    rw [extractFields_eq_foldl]
    rfl
  | arr elems =>
    rw [extract_values_by_paths, nodesOf, List.foldl_append,
      extractElems_eq_foldl]
    rfl
  | null => rfl
  | bool b => rfl
  | num n => rfl
  | str s => rfl

theorem extractFields_eq_foldl (fields : List (String × JValue))
    (paths : List String) (cur : String) (acc : VMap) :
    extractBPFields fields paths cur acc =
      (nodesOfFields fields cur).foldl (extStep paths) acc := by
  match fields with
  | [] => rfl
  | (k, v) :: rest =>
    rw [extractBPFields, nodesOfFields, List.foldl_append,
      ← extract_eq_foldl v paths (absolute_path_append cur k) acc]
    exact extractFields_eq_foldl rest paths cur _

theorem extractElems_eq_foldl (elems : List JValue) (paths : List String)
    (cur : String) (i : Nat) (acc : VMap) :
    extractBPElems elems paths cur i acc =
      (nodesOfElems elems cur i).foldl (extStep paths) acc := by
  match elems with
  | [] => rfl
  | v :: rest =>
    rw [extractBPElems, nodesOfElems, List.foldl_append,
      ← extract_eq_foldl v paths (absolute_path_append cur (toString i)) acc]
    exact extractElems_eq_foldl rest paths cur (i + 1) _

end

theorem foldl_extStep_no_key (paths : List String) (p : String)
    (tr : List (String × JValue)) :
    ∀ (acc : VMap), (∀ e ∈ tr, e.1 ≠ p) →
      amapLookup (tr.foldl (extStep paths) acc) p = amapLookup acc p := by
  induction tr with
  | nil => intro acc _; rfl
  | cons e rest ih =>
    intro acc h
    rw [List.foldl_cons,
      ih _ (fun e' he' => h e' (List.mem_cons_of_mem _ he'))]
    have hep : p ≠ e.1 := fun hh => h e (List.mem_cons_self _ _) hh.symm
    unfold extStep
    by_cases hm : memStr e.1 paths
    · simp only [hm, if_true]
      exact amapLookup_insert_ne _ _ hep
    · simp [hm]

theorem foldl_extStep_unique (paths : List String) (p : String) (v : JValue)
    (tr : List (String × JValue)) :
    ∀ (acc : VMap), memStr p paths = true →
      tr.filter (fun e => e.1 = p) = [(p, v)] →
      amapLookup (tr.foldl (extStep paths) acc) p = some v := by
  induction tr with
  | nil => intro acc _ hf; simp at hf
  | cons e rest ih =>
    intro acc hmem hf
    rw [List.filter_cons] at hf
    by_cases he : e.1 = p
    · simp only [he, decide_True, if_true] at hf
      obtain ⟨he2, hrest⟩ := List.cons_eq_cons.mp hf
      subst he2
      rw [List.foldl_cons]
      have hnone : ∀ e' ∈ rest, e'.1 ≠ p := by
        intro e' he'
        have := List.filter_eq_nil_iff.mp hrest e' he'
        simpa using this
      rw [foldl_extStep_no_key paths p rest _ hnone]
      unfold extStep
      simp only [hmem, if_true]
      exact amapLookup_insert_self _ _ _
    · simp only [he, decide_False, if_false] at hf
      exact ih _ hmem hf

/-! One step of the substitution loop on a string with an embedded
placeholder. -/

theorem findChar_cons_ne {c x : Char} (l : List Char) (h : x ≠ c) :
    findChar c (x :: l) = (findChar c l).map (· + 1) := by
  simp [findChar, h]

theorem obr_ne_cbr : obr ≠ cbr := by decide

theorem take_len_add_append {α : Type} (A : List α) (L : List α) (k : Nat) :
    (A ++ L).take (A.length + k) = A ++ L.take k := by
  induction A with
  | nil => simp
  | cons a A ih =>
    have h : (a :: A).length + k = (A.length + k) + 1 := by
      simp only [List.length_cons]
      omega
    rw [h, List.cons_append, List.take_succ_cons, ih, List.cons_append]

theorem drop_len_append {α : Type} (A : List α) (L : List α) :
    (A ++ L).drop A.length = L :=
  drop_len_add_append A L 0

theorem take_len_append {α : Type} (A : List α) (L : List α) :
    (A ++ L).take A.length = A := by
  have h := take_len_add_append A L 0
  rw [List.take_zero, List.append_nil, Nat.add_zero] at h
  exact h

theorem resScan_step (ctx : SMap) (fuel : Nat) (P M K B : List Char)
    (v : String) (hM : obr ∉ M) (hK2 : cbr ∉ K)
    (hv : amapLookup ctx (String.mk K) = some v) :
    resScan ctx (fuel + 1) (P ++ (M ++ (obr :: (K ++ (cbr :: B))))) P.length
      = resScan ctx fuel (P ++ (M ++ (v.data ++ B)))
          (P.length + M.length + v.data.length) := by
  have h1 : findFrom obr (P ++ (M ++ (obr :: (K ++ (cbr :: B))))) P.length
      = some (P.length + M.length) := by
    unfold findFrom
    rw [drop_len_append P (M ++ (obr :: (K ++ (cbr :: B)))),
      findChar_append_notMem _ hM]
    rfl
  have hdrop2 : (P ++ (M ++ (obr :: (K ++ (cbr :: B))))).drop
      (P.length + M.length) = obr :: (K ++ (cbr :: B)) := by
    rw [drop_len_add_append P _ M.length,
      drop_len_append M (obr :: (K ++ (cbr :: B)))]
  have h2 : findFrom cbr (P ++ (M ++ (obr :: (K ++ (cbr :: B)))))
      (P.length + M.length) = some (P.length + M.length + (K.length + 1)) := by
    unfold findFrom
    rw [hdrop2, findChar_cons_ne _ obr_ne_cbr, findChar_append_notMem _ hK2]
    rfl
  have h3 : sliceRef (P ++ (M ++ (obr :: (K ++ (cbr :: B)))))
      (P.length + M.length) (P.length + M.length + (K.length + 1)) = K := by
    unfold sliceRef
    have hidx : P.length + M.length + 1 = P.length + (M.length + 1) := by omega
    rw [hidx, drop_len_add_append P _ (M.length + 1),
      drop_len_add_append M _ 1, List.drop_succ_cons, List.drop_zero]
    have he : P.length + M.length + (K.length + 1) - (P.length + (M.length + 1))
        = K.length := by omega
    rw [he, take_len_append K (cbr :: B)]
  have h4 : replaceRange (P ++ (M ++ (obr :: (K ++ (cbr :: B)))))
      (P.length + M.length) (P.length + M.length + (K.length + 1)) v.data
      = P ++ (M ++ (v.data ++ B)) := by
    unfold replaceRange
    have htake : (P ++ (M ++ (obr :: (K ++ (cbr :: B))))).take
        (P.length + M.length) = P ++ M := by
      rw [take_len_add_append P _ M.length, take_len_append M _]
    have hidx : P.length + M.length + (K.length + 1) + 1
        = P.length + (M.length + (K.length + 2)) := by omega
    have hdropEnd : (P ++ (M ++ (obr :: (K ++ (cbr :: B))))).drop
        (P.length + M.length + (K.length + 1) + 1) = B := by
      rw [hidx, drop_len_add_append P _ (M.length + (K.length + 2)),
        drop_len_add_append M _ (K.length + 2), List.drop_succ_cons,
        drop_len_add_append K _ 1, List.drop_succ_cons, List.drop_zero]
    rw [htake, hdropEnd]
    simp [List.append_assoc]
  simp only [resScan, h1, h2, h3, hv, h4]

/-! The dependency scan of `make_deps_path_map` on a string that is exactly
one relative placeholder. -/

theorem depsScan_single (fuel : Nat) (p : String) (r : List Char)
    (h2 : cbr ∉ r) (h3 : startsWithSlash r = false) :
    depsScan p (fuel + 1 + 1) (obr :: (r ++ [cbr])) 0 []
      = some [(String.mk r,
          resolve_reference_path p (String.mk r))] := by
  have e1 : findFrom obr (obr :: (r ++ [cbr])) 0 = some 0 := by
    unfold findFrom
    rw [List.drop_zero]
    simp [findChar]
  have e2 : findFrom cbr (obr :: (r ++ [cbr])) 0 = some (r.length + 1) := by
    unfold findFrom
    rw [List.drop_zero, findChar_cons_ne _ obr_ne_cbr,
      findChar_append_notMem _ h2]
    simp
  have e3 : sliceRef (obr :: (r ++ [cbr])) 0 (r.length + 1) = r := by
    unfold sliceRef
    rw [List.drop_succ_cons, List.drop_zero]
    have he : r.length + 1 - (0 + 1) = r.length := by omega
    rw [he, take_len_append]
  have e4 : findFrom obr (obr :: (r ++ [cbr])) (r.length + 1 + 1) = none := by
    unfold findFrom
    rw [List.drop_succ_cons]
    have hd : (r ++ [cbr]).drop (r.length + 1) = [] := by
      rw [drop_len_add_append r [cbr] 1]
      rfl
    rw [hd]
    rfl
  simp only [depsScan, e1, e2, e3, h3, Bool.false_eq_true, if_false, e4]
  rfl

/-! Documents without placeholders contribute nothing to the dependency
map of the parsing module. -/

mutual

theorem make_deps_noPl (fuel : Nat) (j : JValue) (b : String) (acc : DepsMap)
    (h : noPlaceholders j = true) :
    make_deps_path_map (fuel + 1) j b acc = some acc := by
  cases j with
  | str s =>
    have hnone : findChar obr s.data = none := by
      rw [noPlaceholders] at h
      exact Option.isNone_iff_eq_none.mp h
    have hf : findFrom obr s.data 0 = none := by
      unfold findFrom
      rw [List.drop_zero, hnone]
      rfl
    simp only [make_deps_path_map, depsScan, hf]
    rfl
  | obj fields =>
    rw [noPlaceholders] at h
    simp only [make_deps_path_map]
    exact makeDepsFields_noPl fuel fields b acc h
  | arr elems =>
    rw [noPlaceholders] at h
    simp only [make_deps_path_map]
    exact makeDepsElems_noPl fuel elems b 0 acc h
  | null => rfl
  | bool bb => rfl
  | num n => rfl

theorem makeDepsFields_noPl (fuel : Nat) (fields : List (String × JValue))
    (b : String) (acc : DepsMap) (h : noPlaceholdersFields fields = true) :
    makeDepsFields (fuel + 1) fields b acc = some acc := by
  match fields with
  | [] => rfl
  | (k, v) :: rest =>
    rw [noPlaceholdersFields, Bool.and_eq_true] at h
    simp only [makeDepsFields, make_deps_noPl fuel v _ acc h.1]
    exact makeDepsFields_noPl fuel rest b acc h.2

theorem makeDepsElems_noPl (fuel : Nat) (elems : List JValue) (b : String)
    (i : Nat) (acc : DepsMap) (h : noPlaceholdersList elems = true) :
    makeDepsElems (fuel + 1) elems b i acc = some acc := by
  match elems with
  | [] => rfl
  | v :: rest =>
    rw [noPlaceholdersList, Bool.and_eq_true] at h
    simp only [makeDepsElems, make_deps_noPl fuel v _ acc h.1]
    exact makeDepsElems_noPl fuel rest b (i + 1) acc h.2

end

theorem makeDepsElems_single (fuel : Nat) (r : List Char)
    (hr2 : cbr ∉ r) (hr3 : startsWithSlash r = false) :
    ∀ (elems : List JValue) (i idx : Nat) (b : String) (acc : DepsMap),
      elems.get? i = some (.str (String.mk (obr :: (r ++ [cbr])))) →
      noPlaceholdersList (elems.eraseIdx i) = true →
      makeDepsElems (fuel + 1 + 1) elems b idx acc
        = some (amapInsert acc (absolute_path_append b (toString (idx + i)))
            [(String.mk r, resolve_reference_path
              (absolute_path_append b (toString (idx + i))) (String.mk r))]) := by
  intro elems
  induction elems with
  | nil => intro i idx b acc hget _; simp [List.get?] at hget
  | cons v rest ih =>
    intro i idx b acc hget hnp
    cases i with
    | zero =>
      have hv : v = .str (String.mk (obr :: (r ++ [cbr]))) := by
        simpa [List.get?] using hget
      subst hv
      have hrest : noPlaceholdersList rest = true := by
        simpa [List.eraseIdx] using hnp
      have hscan := depsScan_single fuel
        (absolute_path_append b (toString idx)) r hr2 hr3
      simp only [makeDepsElems, make_deps_path_map, String.data] at hscan ⊢
      rw [hscan]
      simp only [List.isEmpty_cons, if_false, Bool.false_eq_true, Nat.add_zero]
      exact makeDepsElems_noPl (fuel + 1) rest b (idx + 1) _ hrest
    | succ i' =>
      have hget' : rest.get? i'
          = some (.str (String.mk (obr :: (r ++ [cbr])))) := by
        simpa [List.get?] using hget
      have hnp' : noPlaceholders v = true ∧
          noPlaceholdersList (rest.eraseIdx i') = true := by
        rw [List.eraseIdx, noPlaceholdersList, Bool.and_eq_true] at hnp
        exact hnp
      simp only [makeDepsElems,
        make_deps_noPl (fuel + 1) v (absolute_path_append b (toString idx)) acc
          hnp'.1]
      have harith : idx + 1 + i' = idx + (i' + 1) := by omega
      rw [← harith]
      exact ih i' (idx + 1) b acc hget' hnp'.2

/-! Divergence of the rewrite loop of `convert_to_absolute_paths` on
`divergingDoc`: whenever the text at the scan position starts with `{}` and
the empty reference maps to `/k{`, one iteration reproduces the same
situation, so no amount of fuel suffices. -/

theorem convGo_diverge :
    ∀ (fuel : Nat) (text : List Char) (sp : Nat) (B : List Char),
      text.drop sp = obr :: (cbr :: B) →
      convGo divergeMap fuel text sp = none := by
  intro fuel
  induction fuel with
  | zero => intro text sp B _; rfl
  | succ f ih =>
    intro text sp B hdrop
    have hsp : sp < text.length := by
      have hh := congrArg List.length hdrop
      simp only [List.length_drop, List.length_cons] at hh
      omega
    have e1 : findFrom obr text sp = some sp := by
      unfold findFrom
      rw [hdrop]
      simp [findChar]
    have e2 : findFrom cbr text sp = some (sp + 1) := by
      unfold findFrom
      rw [hdrop, findChar_cons_ne _ obr_ne_cbr]
      simp [findChar]
    have e3 : sliceRef text sp (sp + 1) = [] := by
      unfold sliceRef
      have hz : sp + 1 - (sp + 1) = 0 := by omega
      rw [hz, List.take_zero]
    have e4 : amapLookup divergeMap "" = some "/k\x7b" := rfl
    have hd : ("/k\x7b" : String).data = ['/', 'k', obr] := rfl
    have hlen : ("/k\x7b" : String).data.length = 3 := rfl
    have htake : (List.take sp text).length = sp := by
      rw [List.length_take]
      omega
    have hdrop2 :
        (replaceRange text sp (sp + 1) (obr :: ("/k\x7b" : String).data ++ [cbr])).drop
          (sp + 3) = obr :: (cbr :: B) := by
      unfold replaceRange
      rw [hd]
      have hd2 : text.drop (sp + 2) = B := by
        have hh : text.drop (sp + 2) = (text.drop sp).drop 2 := by
          rw [List.drop_drop]
        rw [hh, hdrop]
        rfl
      rw [hd2]
      have hidx : sp + 3 = (List.take sp text).length + 3 := by rw [htake]
      rw [hidx, List.append_assoc, drop_len_add_append]
      rfl
    simp only [convGo, e1, e2, e3, e4]
    rw [hlen]
    exact ih _ (sp + 3) B hdrop2

theorem convert_diverge (fuel : Nat) :
    convert_to_absolute_paths fuel divergingDoc divergeMap = none := by
  have h := convGo_diverge fuel ("\x7b\x7d" : String).data 0 [] rfl
  simp only [divergingDoc, convert_to_absolute_paths, convertFields, h]

theorem prepare_diverging (n : Nat) :
    prepare_path_map (n + 1 + 1) divergingDoc "" [] = some divergeMap := by
  have e1 : findFrom obr ("\x7b\x7d" : String).data 0 = some 0 := rfl
  have e2 : findFrom cbr ("\x7b\x7d" : String).data 0 = some 1 := rfl
  have e3 : sliceRef ("\x7b\x7d" : String).data 0 1 = [] := rfl
  have e4 : startsWithSlash [] = false := rfl
  have e7 : findFrom obr ("\x7b\x7d" : String).data (1 + 1) = none := rfl
  simp only [divergingDoc, prepare_path_map, prepareFields, prepScan,
    e1, e2, e3, e4, e7]
  rfl

/-! Lemmas about `resolve_reference_path`: clamping at the root and the
single leading slash. -/

theorem splitSlash_upN (n : Nat) :
    splitSlash (upN n ++ ['x']) = List.replicate n ['.', '.'] ++ [['x']] := by
  induction n with
  | zero => rfl
  | succ n ih =>
    have hdot : ¬ ('.' = '/') := by decide
    show splitSlashGo [] ('.' :: '.' :: '/' :: (upN n ++ ['x'])) = _
    rw [splitSlashGo, if_neg hdot, splitSlashGo, if_neg hdot, splitSlashGo,
      if_pos rfl]
    rw [List.replicate_succ, List.cons_append]
    exact congrArg _ ih

theorem foldl_dotdot (n : Nat) :
    List.foldl (fun acc seg => if seg = ['.', '.'] then acc.dropLast
        else if seg = [] then acc else acc ++ [seg]) []
      (List.replicate n ['.', '.']) = ([] : List (List Char)) := by
  induction n with
  | zero => rfl
  | succ n ih =>
    rw [List.replicate_succ, List.foldl_cons]
    simpa using ih

theorem splitSlashGo_no_slash :
    ∀ (l cur : List Char), '/' ∉ cur →
      ∀ p ∈ splitSlashGo cur l, '/' ∉ p := by
  intro l
  induction l with
  | nil =>
    intro cur hcur p hp
    simp only [splitSlashGo, List.mem_singleton] at hp
    subst hp
    simpa using hcur
  | cons c rest ih =>
    intro cur hcur p hp
    by_cases hc : c = '/'
    · rw [splitSlashGo, if_pos hc] at hp
      rcases List.mem_cons.mp hp with hp1 | hp2
      · subst hp1
        simpa using hcur
      · exact ih [] (by simp) p hp2
    · rw [splitSlashGo, if_neg hc] at hp
      have hcc : '/' ∉ c :: cur := by
        simp only [List.mem_cons, not_or]
        exact ⟨fun hh => hc hh.symm, hcur⟩
      exact ih (c :: cur) hcc p hp

theorem foldl_parts_inv :
    ∀ (segs : List (List Char)) (acc : List (List Char)),
      (∀ p ∈ acc, p ≠ [] ∧ '/' ∉ p) → (∀ s ∈ segs, '/' ∉ s) →
      ∀ p ∈ List.foldl (fun acc seg => if seg = ['.', '.'] then acc.dropLast
          else if seg = [] then acc else acc ++ [seg]) acc segs,
        p ≠ [] ∧ '/' ∉ p := by
  intro segs
  induction segs with
  | nil => intro acc hacc _ p hp; exact hacc p hp
  | cons s rest ih =>
    intro acc hacc hsegs p hp
    rw [List.foldl_cons] at hp
    have hrest : ∀ s' ∈ rest, '/' ∉ s' :=
      fun s' hs' => hsegs s' (List.mem_cons_of_mem _ hs')
    by_cases h1 : s = ['.', '.']
    · refine ih acc.dropLast ?_ hrest p (by simpa [h1] using hp)
      intro q hq
      exact hacc q (List.dropLast_subset _ hq)
    · by_cases h2 : s = []
      · refine ih acc ?_ hrest p (by simpa [h1, h2] using hp)
        exact hacc
      · refine ih (acc ++ [s]) ?_ hrest p (by simpa [h1, h2] using hp)
        intro q hq
        rcases List.mem_append.mp hq with hq1 | hq2
        · exact hacc q hq1
        · rw [List.mem_singleton] at hq2
          subst hq2
          exact ⟨h2, hsegs q (List.mem_cons_self _ _)⟩

theorem joinSlash_no_lead (parts : List (List Char))
    (hinv : ∀ p ∈ parts, p ≠ [] ∧ '/' ∉ p) :
    ∀ c, (joinSlash parts).head? = some c → ¬ c = '/' := by
  match parts with
  | [] => intro c hc; simp [joinSlash] at hc
  | [p] =>
    intro c hc
    have hp := hinv p (by simp)
    match p, hp, hc with
    | a :: p', hp, hc =>
      have ha : a = c := by
        simpa [joinSlash] using hc
      subst ha
      exact fun hh => hp.2 (hh ▸ List.mem_cons_self _ _)
  | p :: q :: rest =>
    intro c hc
    have hp := hinv p (by simp)
    match p, hp, hc with
    | a :: p', hp, hc =>
      have ha : a = c := by
        simpa [joinSlash] using hc
      subst ha
      exact fun hh => hp.2 (hh ▸ List.mem_cons_self _ _)

/-! The claims. -/

/-- C1: `resolve_json` conflates two occurrences of the same raw relative
reference text under one global key.  On the two-sibling-branch document
(the one of the repository's own failing test) `prepare_path_map` keys the
dependency map by the raw text `../parent_key` alone, the second leaf's
resolution overwrites the first, both leaves are rewritten to
`/branch2/parent_key`, and both receive `value2` instead of each leaf's own
parent value. -/
theorem c1_conflated_global_key :
    resolve_json 50 siblingBranchesDoc = some siblingBranchesOut := by
  rfl

/-- C2: on `{"a": "{/b}", "b": 42}` `resolve_json` produces the string
`"42"` for the leaf `a`, not the number `42`: `extract_values_from_paths`
stringifies numbers and `resolve_values` substitutes purely textually, so
the claimed type preservation does not hold for the entry point. -/
theorem c2_number_rendered_as_string :
    resolve_json 50 wholeStringDoc = some wholeStringOut := by
  rfl

/-- C3 counterexample: an unresolvable placeholder is not always preserved
character for character — the relative reference `{nonexistent}` is
rewritten to its absolute form `{/nonexistent}` by path expansion even
though it resolves to nothing, so the output differs from the input. -/
theorem c3_relative_not_verbatim :
    resolve_json 50 relNonexistentDoc = some relNonexistentOut
      ∧ relNonexistentOut ≠ relNonexistentDoc := by
  refine ⟨rfl, ?_⟩
  intro h
  simp [relNonexistentOut, relNonexistentDoc] at h

/-- C3 (amended): the pipeline signals no error and keeps unresolvable
placeholders in placeholder form: an unresolvable absolute reference is
preserved verbatim (`{"x": "{/nonexistent}"}` resolves to itself
unchanged), while an unresolvable relative reference survives as a
placeholder but rewritten to its absolute form. -/
theorem c3_unresolvable_preserved :
    resolve_json 50 absNonexistentDoc = some absNonexistentDoc
      ∧ resolve_json 50 relNonexistentDoc = some relNonexistentOut := by
  exact ⟨rfl, rfl⟩

/-- C4: for every requested absolute path, the target extractor
`extract_values_by_paths` records into the TargetTable the value present at
that path in the walked document, verbatim and whatever its kind, with a
requested container captured whole while its children are still visited.
`nodesOf` is the trace of the walk (node paths with their values); when the
requested path `p` occurs exactly once, the table binds `p` to exactly that
node's value. -/
theorem c4_extractor_records_verbatim (j : JValue) (paths : List String)
    (cur p : String) (v : JValue) (hmem : memStr p paths = true)
    (huniq : (nodesOf j cur).filter (fun e => e.1 = p) = [(p, v)]) :
    amapLookup (extract_values_by_paths j paths cur []) p = some v := by
  rw [extract_eq_foldl]
  exact foldl_extStep_unique paths p v _ [] hmem huniq

/-- C4 witness: in `kindsDoc` the array container at `/a` is captured
whole, and its child at `/a/0` is still captured alongside it. -/
theorem c4_extractor_witness :
    amapLookup (extract_values_by_paths kindsDoc ["/a", "/a/0"] "/" []) "/a"
        = some (.arr [.num 1, .bool true])
      ∧ amapLookup
          (extract_values_by_paths kindsDoc ["/a", "/a/0"] "/" []) "/a/0"
        = some (.num 1) :=
  ⟨c4_extractor_records_verbatim kindsDoc ["/a", "/a/0"] "/" "/a"
      (.arr [.num 1, .bool true]) rfl rfl,
    c4_extractor_records_verbatim kindsDoc ["/a", "/a/0"] "/" "/a/0"
      (.num 1) rfl rfl⟩

/-- C5: an embedded placeholder (a strict substring of a longer string) is
replaced by the textual rendering of its target: one step of the
substitution loop on `pre ++ mid ++ "{key}" ++ rest` with `key` bound to
`v` splices in `v`'s text and resumes after it; and on the greeting
document, string targets insert literally while the number target renders
in decimal, giving `"Hi Alice, msgs: 5"`. -/
theorem c5_embedded_textual_rendering :
    (∀ (ctx : SMap) (fuel : Nat) (P M K B : List Char) (v : String),
      obr ∉ M → cbr ∉ K → amapLookup ctx (String.mk K) = some v →
      resScan ctx (fuel + 1) (P ++ (M ++ (obr :: (K ++ (cbr :: B))))) P.length
        = resScan ctx fuel (P ++ (M ++ (v.data ++ B)))
            (P.length + M.length + v.data.length))
    ∧ resolve_json 50 greetingDoc = some greetingOut := by
  refine ⟨?_, rfl⟩
  intro ctx fuel P M K B v hM hK hv
  exact resScan_step ctx fuel P M K B v hM hK hv

/-- C5 witness: one concrete substitution step on `"ab{k}cd"` with `k`
bound to `"val"`, matching the resolved greeting example. -/
theorem c5_embedded_witness :
    resScan [("k", "val")] 2 ("ab\x7bk\x7dcd" : String).data 0
      = resScan [("k", "val")] 1 ("abvalcd" : String).data 5 :=
  c5_embedded_textual_rendering.1 [("k", "val")] 1 [] ['a', 'b'] ['k']
    ['c', 'd'] "val" (by decide) (by decide) rfl

/-- C6: the dependency collector `make_deps_path_map` visits the `i`-th
array element at the enclosing array's path extended with the stringified
index, and a relative reference written inside that element is resolved
against that indexed path as its base: collecting over an array whose
`i`-th element is exactly the placeholder `{r}` (all other elements free of
placeholders) records, under the indexed leaf path, the mapping from `r`
to its resolution against that very path. -/
theorem c6_array_index_base (fuel : Nat) (elems : List JValue) (b : String)
    (i : Nat) (r : List Char)
    (hget : elems.get? i = some (.str (String.mk (obr :: (r ++ [cbr])))))
    (hothers : noPlaceholdersList (elems.eraseIdx i) = true)
    (hr2 : cbr ∉ r) (hr3 : startsWithSlash r = false) :
    make_deps_path_map (fuel + 1 + 1) (.arr elems) b []
      = some [(absolute_path_append b (toString i),
          [(String.mk r, resolve_reference_path
            (absolute_path_append b (toString i)) (String.mk r))])] := by
  have h := makeDepsElems_single fuel r hr2 hr3 elems i 0 b [] hget hothers
  simp only [make_deps_path_map]
  rw [h, Nat.zero_add]
  rfl

/-- C6 witness: an array at `/a` whose second element holds `{../q}`; the
collector records the dependency under the indexed path `/a/1` and resolves
`../q` against it to `/q` (sibling of the array, not of the element). -/
theorem c6_array_index_witness :
    make_deps_path_map 3 (.arr arrayRefElems) "/a" []
      = some [("/a/1", [("../q", "/q")])] := by
  have h := c6_array_index_base 1 arrayRefElems "/a" 1 ("../q" : String).data
    rfl rfl (by decide) rfl
  exact h

/-- C7: an opening brace with no matching closing brace truncates scanning
in every stage: the dependency scan of `prepare_path_map` records nothing
further, the rewrite loop of `convert_to_absolute_paths` and the
substitution loop of `resolve_values` both return the text unchanged from
the stray `{` on, and the document `{"x": "value {unterminated"}` passes
through `resolve_json` unchanged. -/
theorem c7_unterminated_truncates :
    (∀ (bp : String) (fuel : Nat) (m : SMap) (text : List Char) (sp a : Nat),
      findFrom obr text sp = some a → findFrom cbr text a = none →
      prepScan bp (fuel + 1) text sp m = some m)
    ∧ (∀ (m : SMap) (fuel : Nat) (text : List Char) (sp a : Nat),
      findFrom obr text sp = some a → findFrom cbr text a = none →
      convGo m (fuel + 1) text sp = some text)
    ∧ (∀ (ctx : SMap) (fuel : Nat) (text : List Char) (sp a : Nat),
      findFrom obr text sp = some a → findFrom cbr text a = none →
      resScan ctx (fuel + 1) text sp = some text)
    ∧ resolve_json 50 malformedDoc = some malformedDoc := by
  refine ⟨?_, ?_, ?_, rfl⟩
  · intro bp fuel m text sp a h1 h2
    simp only [prepScan, h1, h2]
  · intro m fuel text sp a h1 h2
    simp only [convGo, h1, h2]
  · intro ctx fuel text sp a h1 h2
    simp only [resScan, h1, h2]

/-- C7 witness: the substitution loop leaves `"value {unterminated"`
untouched from its stray opening brace on. -/
theorem c7_unterminated_witness :
    resScan [] 1 ("value \x7bunterminated" : String).data 0
      = some ("value \x7bunterminated" : String).data :=
  c7_unterminated_truncates.2.2.1 [] 0 ("value \x7bunterminated" : String).data
    0 6 rfl rfl

/-- C8: substitution is not transitive — target values are extracted from
the pre-substitution document and inserted text is never rescanned, so on
`chainDoc` the leaf `a`, which references `b`, receives `b`'s literal,
still unresolved text `"{/c}"` rather than `c`'s value, and that
placeholder text survives in the output. -/
theorem c8_no_transitive_resolution :
    resolve_json 50 chainDoc = some chainOut := by
  rfl

/-- C9: `resolve_json` is not total: on `divergingDoc` the rewrite loop of
`convert_to_absolute_paths` resumes at `absolute_start +
absolute_path.len()`, the last character of the freshly inserted path, and
since the empty reference maps to `/k{` — a path ending in an opening
brace — every iteration reproduces the same configuration; no fuel
suffices, i.e. the Rust loop never terminates. -/
theorem c9_nontermination (fuel : Nat) :
    resolve_json fuel divergingDoc = none := by
  match fuel with
  | 0 => rfl
  | 1 => rfl
  | (n + 2) =>
    show resolve_json (n + 1 + 1) divergingDoc = none
    simp only [resolve_json, prepare_diverging n, convert_diverge (n + 1 + 1)]

/-- C9 witness: with fuel 5 the pipeline already yields no result. -/
theorem c9_nontermination_witness : resolve_json 5 divergingDoc = none :=
  c9_nontermination 5

/-- C10: relative resolution clamps at the document root: popping an empty
segment list is a no-op, so from a top-level leaf any number of `../`
up-references still yields the root-anchored `/x`; and for every base and
reference the result of `resolve_reference_path` begins with exactly one
leading slash. -/
theorem c10_root_clamping :
    (∀ n : Nat,
      resolve_reference_path "/leaf" (String.mk (upN n ++ ['x'])) = "/x")
    ∧ (∀ base rel : String, ∃ rest : List Char,
        (resolve_reference_path base rel).data = '/' :: rest
          ∧ ∀ c, rest.head? = some c → ¬ c = '/') := by
  constructor
  · intro n
    simp only [resolve_reference_path]
    rw [splitSlash_upN]
    rw [show (List.filter (fun p => decide (p ≠ []))
        (splitSlash ['/', 'l', 'e', 'a', 'f'])).dropLast
        = ([] : List (List Char)) from rfl]
    rw [List.foldl_append, foldl_dotdot]
    rfl
  · intro base rel
    refine ⟨_, rfl, ?_⟩
    apply joinSlash_no_lead
    apply foldl_parts_inv
    · intro p hp
      have hp2 := List.dropLast_subset _ hp
      have hp3 := List.mem_filter.mp hp2
      refine ⟨by simpa using hp3.2, ?_⟩
      exact splitSlashGo_no_slash base.data [] (by simp) p hp3.1
    · intro s hs
      exact splitSlashGo_no_slash rel.data [] (by simp) s hs

/-- C10 witness: two up-references from a top-level leaf clamp at the root,
and a concrete resolution starts with exactly one leading slash. -/
theorem c10_root_clamping_witness :
    resolve_reference_path "/leaf" (String.mk (upN 2 ++ ['x'])) = "/x"
      ∧ ∃ rest : List Char,
        (resolve_reference_path "/a/b" "c").data = '/' :: rest
          ∧ ∀ c, rest.head? = some c → ¬ c = '/' :=
  ⟨c10_root_clamping.1 2, c10_root_clamping.2 "/a/b" "c"⟩

end JsonDeref
